import Mathlib

/-!
# libctf: a verification development

Shallow embedding of `src/ctf.c` (the CTF service library) and theorems about it.

Conventions of the embedding

* The operating system is an explicit parameter.  The return values of `read`, `write`,
  `accept`, `fork`, `setgid`, ... are taken from outcome functions or records, so that a
  theorem quantified over them holds for every behaviour of the system.
* `unsigned int` values are natural numbers, reduced modulo `2 ^ 32` where the C code
  computes with them; `int` values are integers.  Returning an `unsigned int` from a
  function declared `int` is the usual two's complement conversion (`toCInt`).
* Memory reached through a `char *` is a function from offsets to characters; a pointer
  that may be `NULL` is an `Option`.
* Loops that C leaves unbounded take a fuel argument and return `none` when it runs out.
-/

namespace LibCtf

/-! ## Machine arithmetic -/

/-- Number of values of the C type `unsigned int`. -/
def UINT_RANGE : Nat := 2 ^ 32

/-- The statement `i += prev` for `unsigned int i` and `int prev`: `prev` is converted to
unsigned and the sum is taken modulo `2 ^ 32`. -/
def uaddInt (i : Nat) (prev : Int) : Nat :=
  (((i : Int) + prev) % (UINT_RANGE : Int)).toNat

/-- The conversion applied by `return i;` in a function returning `int` when `i` is an
`unsigned int`: values from `2 ^ 31` on come out negative. -/
def toCInt (i : Nat) : Int :=
  if i < 2 ^ 31 then (i : Int) else (i : Int) - 2 ^ 32

/-! ## Reliable byte channel (`ctf_recv`, `ctf_recvuntil`, `ctf_sendn`) -/

/-- Outcomes of the underlying `read` or `write`: `io k n` is the value that the `k`-th
call (counted from 0), asked for `n` bytes, leaves in the `int` variable `prev`. -/
abbrev IoOutcomes := Nat → Nat → Int

/-- A `char` buffer, addressed by offset from its base pointer. -/
abbrev Buffer := Nat → Char

/-- Store of one character: `msg[i] = c`. -/
def Buffer.store (msg : Buffer) (i : Nat) (c : Char) : Buffer :=
  fun j => if j = i then c else msg j

/-- Effect of a `read` that delivered `r` bytes to `msg + i`: the bytes come from the
stream `data`, starting at the stream position `pos`. -/
def Buffer.fill (msg : Buffer) (i r : Nat) (data : Nat → Char) (pos : Nat) : Buffer :=
  fun j => if i ≤ j ∧ j < i + r then data (pos + (j - i)) else msg j

/-- Loop state of the receive functions: the index `i`, the destination buffer, the number
of bytes consumed from the stream and the return values of the `read` calls so far. -/
structure RxState where
  i : Nat
  msg : Buffer
  pos : Nat
  log : List Int

/-- What a receive function leaves behind: its return value, the destination buffer (absent
when the pointer was `NULL`), the number of bytes consumed from the stream and the return
values of the `read` calls it made, in order. -/
structure RxResult where
  ret : Int
  msg : Option Buffer
  pos : Nat
  log : List Int

/-- The `for (i = 0; i < len; i += prev)` loop of `ctf_recv`. -/
def ctf_recv_loop (rd : IoOutcomes) (data : Nat → Char) (len : Nat) : Nat → RxState → Option RxState
  | 0, _ => none
  | fuel + 1, st =>
    if st.i < len then
      let prev := rd st.log.length (len - st.i)
      if prev ≤ 0 then
        some { st with log := st.log ++ [prev] }
      else
        ctf_recv_loop rd data len fuel
          { i := uaddInt st.i prev
            msg := st.msg.fill st.i prev.toNat data st.pos
            pos := st.pos + prev.toNat
            log := st.log ++ [prev] }
    else
      some st

/-- Model of `int ctf_recv(int sd, char *msg, unsigned int len)` (src/ctf.c, 302-321). -/
def ctf_recv (fuel : Nat) (rd : IoOutcomes) (data : Nat → Char) (msg : Option Buffer)
    (len : Nat) : Option RxResult :=
  match msg with
  | some m =>
    if len ≠ 0 then
      (ctf_recv_loop rd data len fuel { i := 0, msg := m, pos := 0, log := [] }).map
        fun st => { ret := toCInt st.i, msg := some st.msg, pos := st.pos, log := st.log }
    else
      some { ret := toCInt 0, msg := some m, pos := 0, log := [] }
  | none => some { ret := toCInt 0, msg := none, pos := 0, log := [] }

/-- The `for (i = 0; i < len; i += prev)` loop of `ctf_recvuntil`: one byte per `read`,
stored at `msg[i]`; both `break`s leave the loop before `i += prev` is executed. -/
def ctf_recvuntil_loop (rd : IoOutcomes) (data : Nat → Char) (len : Nat) (stop : Char) :
    Nat → RxState → Option RxState
  | 0, _ => none
  | fuel + 1, st =>
    if st.i < len then
      let prev := rd st.log.length 1
      if prev ≤ 0 then
        some { st with log := st.log ++ [prev] }
      else
        let buf := data st.pos
        let msg := st.msg.store st.i buf
        if buf = stop then
          some { i := st.i, msg := msg, pos := st.pos + 1, log := st.log ++ [prev] }
        else
          ctf_recvuntil_loop rd data len stop fuel
            { i := uaddInt st.i prev, msg := msg, pos := st.pos + 1, log := st.log ++ [prev] }
    else
      some st

/-- Model of `int ctf_recvuntil(int sd, char *msg, unsigned int len, const char stop)`
(src/ctf.c, 328-357). -/
def ctf_recvuntil (fuel : Nat) (rd : IoOutcomes) (data : Nat → Char) (msg : Option Buffer)
    (len : Nat) (stop : Char) : Option RxResult :=
  match msg with
  | some m =>
    if len ≠ 0 then
      (ctf_recvuntil_loop rd data len stop fuel { i := 0, msg := m, pos := 0, log := [] }).map
        fun st => { ret := toCInt st.i, msg := some st.msg, pos := st.pos, log := st.log }
    else
      some { ret := toCInt 0, msg := some m, pos := 0, log := [] }
  | none => some { ret := toCInt 0, msg := none, pos := 0, log := [] }

/-- Loop state of `ctf_sendn`: the index `i`, the chunks handed to the peer so far and the
return values of the `write` calls so far. -/
structure TxState where
  i : Nat
  sent : List (List Char)
  log : List Int

/-- What `ctf_sendn` leaves behind: its return value, the chunks written, in order, and the
return values of the `write` calls it made, in order. -/
structure TxResult where
  ret : Int
  sent : List (List Char)
  log : List Int

/-- The bytes `msg[i] .. msg[i + r - 1]`, the chunk accepted by a `write` that returned `r`. -/
def chunk (msg : Buffer) (i r : Nat) : List Char :=
  (List.range r).map fun j => msg (i + j)

/-- The `for (i = 0; i < len; i += prev)` loop of `ctf_sendn`, up to its `return`: the
result is the returned `int` together with the final state. -/
def ctf_sendn_loop (wr : IoOutcomes) (msg : Buffer) (len : Nat) : Nat → TxState → Option TxResult
  | 0, _ => none
  | fuel + 1, st =>
    if st.i < len then
      let prev := wr st.log.length (len - st.i)
      if prev ≤ 0 then
        some { ret := prev, sent := st.sent, log := st.log ++ [prev] }
      else
        ctf_sendn_loop wr msg len fuel
          { i := uaddInt st.i prev
            sent := st.sent ++ [chunk msg st.i prev.toNat]
            log := st.log ++ [prev] }
    else
      some { ret := toCInt st.i, sent := st.sent, log := st.log }

/-- Model of `int ctf_sendn(int sd, const char *msg, unsigned int len)` (src/ctf.c, 374-391). -/
def ctf_sendn (fuel : Nat) (wr : IoOutcomes) (msg : Buffer) (len : Nat) : Option TxResult :=
  ctf_sendn_loop wr msg len fuel { i := 0, sent := [], log := [] }

/-- The bytes a peer finds in a lossless in-order channel after the chunks `sent` were
written to it: their concatenation (positions past the end read as NUL). -/
def channelData (sent : List (List Char)) : Nat → Char :=
  fun j => sent.flatten.getD j (Char.ofNat 0)

/-- The first `n` bytes of a buffer, as a list. -/
def Buffer.take (msg : Buffer) (n : Nat) : List Char :=
  (List.range n).map msg

/-- The log `log` lists, call by call, what the outcome function `io` returns to a loop that
transfers `len` bytes and asks each time for the bytes still missing: entry `k` is
`io k (len - s)`, where `s` is the total of the entries before it. -/
def followsOutcomes (io : IoOutcomes) (len : Nat) (log : List Int) : Prop :=
  ∀ k r, log[k]? = some r → r = io k (len - ((log.take k).sum).toNat)

/-! ### Concrete channel inputs used in the examples -/

/-- The stream holding the seven bytes `"abc\ndef"` (NUL past its end). -/
def abcStream : Nat → Char :=
  fun j => "abc\ndef".toList.getD j (Char.ofNat 0)

/-- Outcomes of `read` on a stream of seven bytes: one byte per call, then end of input. -/
def abcReads : IoOutcomes :=
  fun k _ => if k < 7 then 1 else 0

/-- A destination buffer filled with dots. -/
def blank : Buffer :=
  fun _ => '.'

/-- Outcomes of a `read` or `write` that never fails and transfers at most `c` bytes per call. -/
def capped (c : Nat) : IoOutcomes :=
  fun _ n => ((min n c : Nat) : Int)

/-- Outcomes of a `write` that accepts two bytes and then fails with `-1`. -/
def failSecond : IoOutcomes :=
  fun k n => if k = 0 then ((min n 2 : Nat) : Int) else -1

/-- The endless stream that repeats the byte `c`. -/
def constStream (c : Char) : Nat → Char :=
  fun _ => c

/-! ## Descriptor table and the system calls on it -/

/-- The descriptor table of a process: a descriptor is mapped to the open file it refers to
(an identifier of the open file description), or to `none` when it is closed. -/
abbrev FdTable := Int → Option Nat

/-- The table with the entry of `fd` replaced. -/
def FdTable.set (t : FdTable) (fd : Int) (v : Option Nat) : FdTable :=
  fun x => if x = fd then v else t x

/-- The lowest closed descriptor among the `n` descriptors starting at `fd`. -/
def lowestFreeFrom (t : FdTable) : Nat → Int → Option Int
  | 0, _ => none
  | n + 1, fd => if (t fd).isNone then some fd else lowestFreeFrom t n (fd + 1)

/-- POSIX allocation of a new descriptor (`open`, `accept`): when the call has a file to
return (`file`), it is installed at the lowest closed descriptor below the table limit `max`
and that descriptor is returned; otherwise the call returns `-1` and the table is unchanged. -/
def sys_alloc (t : FdTable) (max : Int) (file : Option Nat) : Int × FdTable :=
  match file, lowestFreeFrom t max.toNat 0 with
  | some f, some fd => (fd, t.set fd (some f))
  | _, _ => (-1, t)

/-- POSIX `close(fd)`: the descriptor is closed (closing a closed descriptor changes nothing). -/
def sys_close (t : FdTable) (fd : Int) : FdTable :=
  t.set fd none

/-- POSIX `dup2(old, new)`: fails with `-1` when interrupted (`intr`), when `old` is not open
or when `new` is outside `[0, max)`; when `new = old` it does nothing and returns `new`;
otherwise `new` is made to refer to the file of `old` (whatever `new` referred to before is
dropped) and `new` is returned. -/
def sys_dup2 (t : FdTable) (max : Int) (intr : Bool) (old new : Int) : Int × FdTable :=
  if intr then (-1, t)
  else
    match t old with
    | none => (-1, t)
    | some f =>
      if new < 0 ∨ max ≤ new then (-1, t)
      else if new = old then (new, t)
      else (new, t.set new (some f))

/-! ## Descriptor randomizer (`ctf_randfd`) -/

/-- What `ctf_randfd` finds in its environment: the value of `getdtablesize()`, the file that
`open("/dev/urandom", O_RDONLY)` yields (`none` when it fails), the draws, and whether `dup2`
is interrupted.  A draw is the value held by the `int` variable `new` right before the
reduction modulo `max`: the value of `rand()` in the fallback loop, and the value that
`read(fd, &new, 2)` leaves in `new` in the other loop. -/
structure RandEnv where
  max : Int
  urandom : Option Nat
  draws : List Int
  dupIntr : Bool

/-- The loops `while (new < old) { new = <draw> % max; }` of `ctf_randfd`; `%` is the C
remainder, `Int.tmod`.  The result is `none` when the draws run out before `new < old` fails. -/
def randfd_loop (old max : Int) : List Int → Int → Option Int
  | [], new => if new < old then none else some new
  | d :: ds, new => if new < old then randfd_loop old max ds (Int.tmod d max) else some new

/-- What `ctf_randfd` leaves behind: the descriptor it returns, the descriptor table, and the
value that its `dup2` call returned. -/
structure RandResult where
  ret : Int
  table : FdTable
  dup : Int

/-- Model of `int ctf_randfd(int old)` (src/ctf.c, 268-295). -/
def ctf_randfd (env : RandEnv) (t : FdTable) (old : Int) : Option RandResult :=
  let max := env.max
  let opened := sys_alloc t max env.urandom
  let fd := opened.1
  match randfd_loop old max env.draws 0 with
  | none => none
  | some new =>
    let t1 := if fd < 0 then opened.2 else sys_close opened.2 fd
    let dup := sys_dup2 t1 max env.dupIntr old new
    if dup.1 = -1 then
      some { ret := old, table := dup.2, dup := dup.1 }
    else
      some { ret := new, table := sys_close dup.2 old, dup := dup.1 }

/-! ## Privilege de-escalator (`ctf_privdrop`) -/

/-- The fields of `struct passwd` that the library uses. -/
structure Passwd where
  pw_uid : Nat
  pw_gid : Nat
  pw_dir : String
deriving DecidableEq

/-- The identity and filesystem context of a process. -/
structure Context where
  uid : Nat
  gid : Nat
  groups : List Nat
  root : String
  cwd : String
deriving DecidableEq

/-- Compile-time switches `_DEBUG`, `_NORAND` and `_CHROOT`. -/
structure Config where
  debug : Bool
  norand : Bool
  chroot : Bool
deriving DecidableEq

/-- System calls and library calls made by the dispatcher and the de-escalator, in the order
in which a process makes them. -/
inductive Event where
  | accept (ret : Int)
  | randfd (old ret : Int)
  | fork (ret : Int)
  | getpwnam (user : String)
  | setgroups (size : Nat)
  | setgid (gid : Nat)
  | setuid (uid : Nat)
  | chroot (dir : String)
  | chdir (dir : String)
  | alarm (seconds : Nat)
  | close (fd : Int)
  | handler (fd : Int)
  | exit (status : Int)
deriving DecidableEq

/-- What `ctf_privdrop` finds in its environment: the account database and the return values
of the system calls it makes. -/
structure PrivEnv where
  getpwnam : String → Option Passwd
  setgroups : Int
  setgid : Int
  setuid : Int
  chroot : Int
  chdir : Int

/-- What `ctf_privdrop` leaves behind: the context of the process when the function returns
(`none` when the process was terminated by `exit(-1)` or `errx(-1, ...)`), and the calls made. -/
structure PrivResult where
  ctx : Option Context
  trace : List Event

/-- The last step of `ctf_privdrop`: `chdir(pw_dir)`, or with `_CHROOT` the condition
`chroot(pw_dir) < 0 || chdir("/") < 0`, whose second call is made only if the first
succeeded. -/
def privdrop_dir (cfg : Config) (env : PrivEnv) (pw : Passwd) (c : Context) : PrivResult :=
  if cfg.chroot then
    if env.chroot < 0 then
      { ctx := none, trace := [.chroot pw.pw_dir, .exit (-1)] }
    else if env.chdir < 0 then
      { ctx := none, trace := [.chroot pw.pw_dir, .chdir "/", .exit (-1)] }
    else
      { ctx := some { c with root := pw.pw_dir, cwd := "/" }
        trace := [.chroot pw.pw_dir, .chdir "/"] }
  else
    if env.chdir < 0 then
      { ctx := none, trace := [.chdir pw.pw_dir, .exit (-1)] }
    else
      { ctx := some { c with cwd := pw.pw_dir }, trace := [.chdir pw.pw_dir] }

/-- Model of `void ctf_privdrop(const char *user)` (src/ctf.c, 201-260).  A successful
`setgroups(0, NULL)` empties the supplementary groups, a successful `setgid`/`setuid` sets
the group/user identifier of the process. -/
def ctf_privdrop (cfg : Config) (env : PrivEnv) (user : String) (c : Context) : PrivResult :=
  match env.getpwnam user with
  | none => { ctx := none, trace := [.getpwnam user, .exit (-1)] }
  | some pwentry =>
    if env.setgroups < 0 then
      { ctx := none, trace := [.getpwnam user, .setgroups 0, .exit (-1)] }
    else if env.setgid < 0 then
      { ctx := none
        trace := [.getpwnam user, .setgroups 0, .setgid pwentry.pw_gid, .exit (-1)] }
    else if env.setuid < 0 then
      { ctx := none
        trace := [.getpwnam user, .setgroups 0, .setgid pwentry.pw_gid,
          .setuid pwentry.pw_uid, .exit (-1)] }
    else
      let last := privdrop_dir cfg env pwentry
        { c with groups := [], gid := pwentry.pw_gid, uid := pwentry.pw_uid }
      { ctx := last.ctx
        trace := [.getpwnam user, .setgroups 0, .setgid pwentry.pw_gid,
          .setuid pwentry.pw_uid] ++ last.trace }

/-! ## Connection dispatcher (`ctf_server`) -/

/-- What one iteration of the dispatcher loop finds in its environment: the connection that
`accept` yields (`none` when it fails), the environment of `ctf_randfd`, the value that
`fork` returns in the process considered (`-1` on failure, `0` in the worker, the worker's
process identifier in the supervisor), the environment of `ctf_privdrop`, the context of
the process and the handler. -/
structure IterEnv where
  conn : Option Nat
  rand : RandEnv
  pid : Int
  priv : PrivEnv
  ctx : Context
  handler : Int → Int

/-- How the body of the dispatcher loop ends in a process: the process goes on to the next
iteration with a descriptor table, or it has terminated with an exit status. -/
inductive Outcome where
  | continues (table : FdTable)
  | exits (status : Int)

/-- What one iteration of the dispatcher loop leaves behind in a process. -/
structure IterResult where
  outcome : Outcome
  trace : List Event

/-- The worker branch of the loop body, from `ctf_privdrop(user)` to `exit(status)`. -/
def worker_path (cfg : Config) (env : IterEnv) (sd : Int) (user : String) (client : Int) :
    List Event × Int :=
  let served := [Event.close sd, .handler client, .close client, .exit (env.handler client)]
  if cfg.debug then
    (served, env.handler client)
  else
    let drop := ctf_privdrop cfg env.priv user env.ctx
    match drop.ctx with
    | none => (drop.trace, -1)
    | some _ => (drop.trace ++ [.alarm 16] ++ served, env.handler client)

/-- Model of the body of `while (true)` in `void ctf_server(int sd, const char *user,
int (*handler)(int))` (src/ctf.c, 148-193), as executed by one process: `env.pid` says which
way that process leaves `fork`.  The result is `none` when `ctf_randfd` does not return. -/
def ctf_server_body (cfg : Config) (env : IterEnv) (sd : Int) (user : String) (t : FdTable) :
    Option IterResult :=
  let accepted := sys_alloc t env.rand.max env.conn
  let client := accepted.1
  if client = -1 then
    some { outcome := .continues accepted.2, trace := [.accept client] }
  else
    let randomized : Option (Int × FdTable × List Event) :=
      if !cfg.debug && !cfg.norand then
        (ctf_randfd env.rand accepted.2 client).map
          fun r => (r.ret, r.table, [Event.randfd client r.ret])
      else
        some (client, accepted.2, [])
    match randomized with
    | none => none
    | some (client', t', ev) =>
      let pid := env.pid
      let before := [Event.accept client] ++ ev ++ [Event.fork pid]
      if pid = -1 then
        some { outcome := .continues t', trace := before }
      else if pid ≠ 0 then
        some { outcome := .continues (sys_close t' client'), trace := before ++ [.close client'] }
      else
        let w := worker_path cfg env sd user client'
        some { outcome := .exits w.2, trace := before ++ w.1 }

/-! ### Concrete process inputs used in the examples -/

/-- A supervisor's table: standard streams on 0-2, the listening socket (file 1) on 3. -/
def serverTable : FdTable :=
  fun fd => if fd = 0 ∨ fd = 1 ∨ fd = 2 then some 0 else if fd = 3 then some 1 else none

/-- A table as `serverTable` with a log file (file 2) on 4 and an accepted connection
(file 3) on 5. -/
def busyTable : FdTable :=
  fun fd =>
    if fd = 0 ∨ fd = 1 ∨ fd = 2 then some 0
    else if fd = 3 then some 1
    else if fd = 4 then some 2
    else if fd = 5 then some 3
    else none

/-- A randomizer environment with a table limit of 1024, `/dev/urandom` available (file 9)
and the given draws. -/
def urandomEnv (draws : List Int) : RandEnv :=
  { max := 1024, urandom := some 9, draws := draws, dupIntr := false }

/-- As `urandomEnv`, but the `dup2` call is interrupted and fails. -/
def interruptedEnv (draws : List Int) : RandEnv :=
  { max := 1024, urandom := some 9, draws := draws, dupIntr := true }

/-- An account database that knows the single account `ctf`. -/
def ctfAccounts : String → Option Passwd :=
  fun name => if name = "ctf" then some { pw_uid := 1000, pw_gid := 1000, pw_dir := "/home/ctf" }
    else none

/-- An environment in which every call of `ctf_privdrop` succeeds. -/
def privOk : PrivEnv :=
  { getpwnam := ctfAccounts, setgroups := 0, setgid := 0, setuid := 0, chroot := 0, chdir := 0 }

/-- The context of a process running as root. -/
def rootCtx : Context :=
  { uid := 0, gid := 0, groups := [0, 4, 27], root := "/", cwd := "/" }

/-- An iteration environment: a connection (file 5) arrives, the randomizer draws 7,
`fork` returns `pid`, privilege drop succeeds and the handler returns 0. -/
def iterEnv (pid : Int) : IterEnv :=
  { conn := some 5, rand := urandomEnv [7], pid := pid, priv := privOk, ctx := rootCtx
    handler := fun _ => 0 }

/-- The build without `_DEBUG`, `_NORAND` and `_CHROOT`. -/
def release : Config :=
  { debug := false, norand := false, chroot := false }

/-! # Theorems -/

theorem uaddInt_pos {i : Nat} {prev : Int} (hp : 0 < prev) (h : i + prev.toNat < 2 ^ 32) :
    uaddInt i prev = i + prev.toNat := by
  unfold uaddInt UINT_RANGE
  have h1 : ((i : Int) + prev) % ((2 ^ 32 : Nat) : Int) = (i : Int) + prev := by
    apply Int.emod_eq_of_lt <;> omega
  rw [h1]; omega

theorem toCInt_small {i : Nat} (h : i < 2 ^ 31) : toCInt i = (i : Int) := by
  unfold toCInt; rw [if_pos h]

theorem followsOutcomes_nil (io : IoOutcomes) (len : Nat) : followsOutcomes io len [] := by
  intro k r h
  simp at h

theorem followsOutcomes_concat (io : IoOutcomes) (len : Nat) (log : List Int)
    (h : followsOutcomes io len log) :
    followsOutcomes io len (log ++ [io log.length (len - log.sum.toNat)]) := by
  intro k r hk
  by_cases hlt : k < log.length
  · rw [List.getElem?_append_left hlt] at hk
    rw [List.take_append_of_le_length (Nat.le_of_lt hlt)]
    exact h k r hk
  · have hle : log.length ≤ k := by omega
    rw [List.getElem?_append_right hle] at hk
    have hk0 : k - log.length = 0 := by
      by_contra hne
      have : ([io log.length (len - log.sum.toNat)] : List Int)[k - log.length]? = none :=
        List.getElem?_eq_none (by simp; omega)
      rw [this] at hk
      cases hk
    have hkeq : k = log.length := by omega
    subst hkeq
    rw [List.take_left]
    simp at hk
    exact hk.symm

theorem ctf_recv_loop_spec (rd : IoOutcomes) (data : Nat → Char) (len : Nat) (buf : Buffer)
    (hlen : len < 2 ^ 32) (hrd : ∀ k n, 0 < n → rd k n ≤ (n : Int)) :
    ∀ fuel (st : RxState), st.i ≤ len → len - st.i < fuel → st.pos = st.i →
      (∀ r ∈ st.log, 0 < r) → st.log.sum = (st.i : Int) →
      (∀ j, j < st.i → st.msg j = data j) → (∀ j, st.i ≤ j → st.msg j = buf j) →
      followsOutcomes rd len st.log →
      ∃ st', ctf_recv_loop rd data len fuel st = some st' ∧ followsOutcomes rd len st'.log ∧
        st'.i ≤ len ∧ st'.pos = st'.i ∧
        (∀ j, j < st'.i → st'.msg j = data j) ∧ (∀ j, st'.i ≤ j → st'.msg j = buf j) ∧
        ∃ pre : List Int, (∀ r ∈ pre, 0 < r) ∧ pre.sum = (st'.i : Int) ∧
          ((st'.log = pre ∧ st'.i = len) ∨ (∃ r, r ≤ 0 ∧ st'.log = pre ++ [r] ∧ st'.i < len ∧ ∃ k n, 0 < n ∧ r = rd k n)) := by
  intro fuel
  induction fuel with
  | zero => intro st _ h; omega
  | succ fuel ih =>
    intro st hi hf hpos hlog hsum hpre hrest hfol
    have hnext := followsOutcomes_concat rd len st.log hfol
    rw [hsum, Int.toNat_ofNat] at hnext
    unfold ctf_recv_loop
    by_cases hlt : st.i < len
    · simp only [hlt, if_true]
      by_cases hfail : rd st.log.length (len - st.i) ≤ 0
      · simp only [hfail, if_true]
        exact ⟨_, rfl, hnext, hi, hpos, hpre, hrest, st.log, hlog, hsum,
          Or.inr ⟨_, hfail, rfl, hlt, _, len - st.i, by omega, rfl⟩⟩
      · simp only [hfail, if_false]
        have hp : 0 < rd st.log.length (len - st.i) := by omega
        have hle := hrd st.log.length (len - st.i) (by omega)
        have hadd : uaddInt st.i (rd st.log.length (len - st.i))
            = st.i + (rd st.log.length (len - st.i)).toNat := uaddInt_pos hp (by omega)
        rw [hadd]
        apply ih
        · simp only; omega
        · simp only; omega
        · simp only; omega
        · simp only [List.mem_append, List.mem_singleton]
          rintro r (hr | rfl)
          · exact hlog r hr
          · exact hp
        · simp only [List.sum_append, List.sum_singleton, hsum]; omega
        · intro j hj
          simp only [Buffer.fill]
          by_cases hc : st.i ≤ j ∧ j < st.i + (rd st.log.length (len - st.i)).toNat
          · simp only [hc, and_self, if_true, hpos]
            congr 1; omega
          · simp only [hc, if_false]
            apply hpre; simp only at hj; omega
        · intro j hj
          simp only [Buffer.fill]
          simp only at hj
          have hc : ¬ (st.i ≤ j ∧ j < st.i + (rd st.log.length (len - st.i)).toNat) := by omega
          simp only [hc, if_false]
          apply hrest; omega
        · exact hnext
    · simp only [hlt, if_false]
      exact ⟨_, rfl, hfol, hi, hpos, hpre, hrest, st.log, hlog, hsum, Or.inl ⟨rfl, by omega⟩⟩

theorem take_append_chunk (msg : Buffer) (i r : Nat) :
    msg.take i ++ chunk msg i r = msg.take (i + r) := by
  simp only [Buffer.take, chunk, List.range_add, List.map_append, List.map_map]
  rfl

theorem ctf_sendn_loop_spec (wr : IoOutcomes) (msg : Buffer) (len : Nat)
    (hlen : len < 2 ^ 32) (hwr : ∀ k n, 0 < n → wr k n ≤ (n : Int)) :
    ∀ fuel (st : TxState), st.i ≤ len → len - st.i < fuel →
      (∀ r ∈ st.log, 0 < r) → st.log.sum = (st.i : Int) → st.sent.flatten = msg.take st.i →
      followsOutcomes wr len st.log →
      ∃ res, ctf_sendn_loop wr msg len fuel st = some res ∧ followsOutcomes wr len res.log ∧
        ∃ pre : List Int, (∀ r ∈ pre, 0 < r) ∧ 0 ≤ pre.sum ∧ pre.sum ≤ (len : Int) ∧
          ((res.log = pre ∧ pre.sum = (len : Int) ∧ res.ret = toCInt len ∧
              res.sent.flatten = msg.take len) ∨
           (∃ r, r ≤ 0 ∧ res.log = pre ++ [r] ∧ res.ret = r ∧ pre.sum < (len : Int) ∧
              res.sent.flatten = msg.take pre.sum.toNat ∧ ∃ k n, 0 < n ∧ r = wr k n)) := by
  intro fuel
  induction fuel with
  | zero => intro st _ h; omega
  | succ fuel ih =>
    intro st hi hf hlog hsum hsent hfol
    have hnext := followsOutcomes_concat wr len st.log hfol
    rw [hsum, Int.toNat_ofNat] at hnext
    unfold ctf_sendn_loop
    by_cases hlt : st.i < len
    · simp only [hlt, if_true]
      by_cases hfail : wr st.log.length (len - st.i) ≤ 0
      · simp only [hfail, if_true]
        refine ⟨_, rfl, hnext, st.log, hlog, by omega, by omega,
          Or.inr ⟨_, hfail, rfl, rfl, by omega, ?_, _, len - st.i, by omega, rfl⟩⟩
        simp only [hsent, hsum, Int.toNat_ofNat]
      · simp only [hfail, if_false]
        have hp : 0 < wr st.log.length (len - st.i) := by omega
        have hle := hwr st.log.length (len - st.i) (by omega)
        have hadd : uaddInt st.i (wr st.log.length (len - st.i))
            = st.i + (wr st.log.length (len - st.i)).toNat := uaddInt_pos hp (by omega)
        rw [hadd]
        apply ih
        · simp only; omega
        · simp only; omega
        · simp only [List.mem_append, List.mem_singleton]
          rintro r (hr | rfl)
          · exact hlog r hr
          · exact hp
        · simp only [List.sum_append, List.sum_singleton, hsum]; omega
        · simp only [List.flatten_append, hsent, List.flatten_cons, List.flatten_nil,
            List.append_nil, take_append_chunk]
        · exact hnext
    · simp only [hlt, if_false]
      have : st.i = len := by omega
      refine ⟨_, rfl, hfol, st.log, hlog, by omega, by omega,
        Or.inl ⟨rfl, by omega, by rw [this], by rw [hsent, this]⟩⟩

theorem ctf_recvuntil_loop_steps (rd : IoOutcomes) (data : Nat → Char) (len : Nat) (stop : Char)
    (hlen : len < 2 ^ 32) :
    ∀ n fuel (st : RxState), st.i + n ≤ len → st.pos = st.i → st.log.length = st.i →
      (∀ j, st.i ≤ j → j < st.i + n → rd j 1 = 1 ∧ data j ≠ stop) →
      ctf_recvuntil_loop rd data len stop (fuel + n) st =
        ctf_recvuntil_loop rd data len stop fuel
          { i := st.i + n
            msg := fun j => if st.i ≤ j ∧ j < st.i + n then data j else st.msg j
            pos := st.i + n
            log := st.log ++ List.replicate n 1 } := by
  intro n
  induction n with
  | zero =>
    intro fuel st _ hpos _ _
    obtain ⟨i, msg, pos, log⟩ := st
    simp only at hpos
    subst hpos
    congr 2
    · funext j
      have : ¬ (pos ≤ j ∧ j < pos + 0) := by omega
      simp only [this, if_false]
    · simp
  | succ n ih =>
    intro fuel st hi hpos hlog hrd
    obtain ⟨h1, hne⟩ := hrd st.i (Nat.le_refl _) (by omega)
    rw [show fuel + (n + 1) = (fuel + n) + 1 by omega, ctf_recvuntil_loop]
    have hlt : st.i < len := by omega
    have hadd : uaddInt st.i 1 = st.i + 1 := by
      have := @uaddInt_pos st.i 1 (by omega) (by simp only [Int.toNat_one]; omega)
      simpa using this
    simp only [hlt, if_true, hlog, h1, show ¬ ((1 : Int) ≤ 0) by omega, if_false, hpos, hne, hadd]
    rw [ih fuel _ (by simp only; omega) rfl (by simp [hlog])
      (fun j hj1 hj2 => hrd j (by simp only at hj1; omega) (by simp only at hj2; omega))]
    congr 2
    · simp only; omega
    · funext j
      simp only [Buffer.store]
      by_cases hj : j = st.i
      · subst hj
        have h1 : ¬ (st.i + 1 ≤ st.i ∧ st.i < st.i + 1 + n) := by omega
        have h2 : st.i ≤ st.i ∧ st.i < st.i + (n + 1) := by omega
        simp only [h1, h2, and_self, if_true, if_false]
      · by_cases hc : st.i + 1 ≤ j ∧ j < st.i + 1 + n
        · have h2 : st.i ≤ j ∧ j < st.i + (n + 1) := by omega
          simp only [hc, h2, and_self, if_true]
        · have h2 : ¬ (st.i ≤ j ∧ j < st.i + (n + 1)) := by omega
          simp only [hc, h2, hj, if_false]
    · simp only; omega
    · simp [List.replicate_succ]

/-- Behaviour of `ctf_recvuntil` when the maximum length is reached first. -/
theorem ctf_recvuntil_full (rd : IoOutcomes) (data : Nat → Char) (buf : Buffer) (len fuel : Nat)
    (stop : Char) (hlen : len < 2 ^ 32) (h0 : 0 < len) (hfuel : len < fuel)
    (hrd : ∀ j, j < len → rd j 1 = 1) (hdata : ∀ j, j < len → data j ≠ stop) :
    ctf_recvuntil fuel rd data (some buf) len stop =
      some { ret := toCInt len
             msg := some fun j => if j < len then data j else buf j
             pos := len
             log := List.replicate len 1 } := by
  obtain ⟨f, rfl⟩ : ∃ f, fuel = (f + 1) + len := ⟨fuel - len - 1, by omega⟩
  have hs := ctf_recvuntil_loop_steps rd data len stop hlen len (f + 1)
    { i := 0, msg := buf, pos := 0, log := [] } (by simp) rfl rfl
    (fun j _ hj => ⟨hrd j (by simpa using hj), hdata j (by simpa using hj)⟩)
  simp only [ctf_recvuntil, ne_eq, show len ≠ 0 by omega, not_false_eq_true, if_true, hs]
  rw [ctf_recvuntil_loop]
  simp

/-- Behaviour of `ctf_recvuntil` when the sentinel arrives first, at stream index `k`. -/
theorem ctf_recvuntil_stop (rd : IoOutcomes) (data : Nat → Char) (buf : Buffer) (len fuel k : Nat)
    (stop : Char) (hlen : len < 2 ^ 32) (hk : k < len) (hfuel : len < fuel)
    (hrd : ∀ j, j ≤ k → rd j 1 = 1) (hdata : ∀ j, j < k → data j ≠ stop) (hstop : data k = stop) :
    ctf_recvuntil fuel rd data (some buf) len stop =
      some { ret := toCInt k
             msg := some fun j => if j ≤ k then data j else buf j
             pos := k + 1
             log := List.replicate (k + 1) 1 } := by
  obtain ⟨f, rfl⟩ : ∃ f, fuel = (f + 1) + k := ⟨fuel - k - 1, by omega⟩
  have hs := ctf_recvuntil_loop_steps rd data len stop hlen k (f + 1)
    { i := 0, msg := buf, pos := 0, log := [] } (by simp; omega) rfl rfl
    (fun j _ hj => ⟨hrd j (by simp at hj; omega), hdata j (by simpa using hj)⟩)
  simp only [ctf_recvuntil, ne_eq, show len ≠ 0 by omega, not_false_eq_true, if_true, hs]
  rw [ctf_recvuntil_loop]
  simp only [Nat.zero_add, hk, if_true, List.nil_append, List.length_replicate, hrd k (Nat.le_refl _),
    show ¬ ((1 : Int) ≤ 0) by omega, if_false, hstop, Option.map_some', Option.some.injEq]
  congr 2
  · funext j
    simp only [Buffer.store]
    by_cases hj : j = k
    · subst hj; simp [hstop]
    · by_cases hj2 : j < k
      · simp [hj2, hj, Nat.le_of_lt hj2]
      · simp [hj2, hj, show ¬ (j ≤ k) by omega]
  · simp [List.replicate_succ']


/-! ### Claims about the byte channel -/

/-- C1 (failing input): on the stream `"abc\ndef"` with sentinel `'\n'` and maximum length
10, `ctf_recvuntil` reads four bytes and stores `"abc\n"`, yet returns 3: the `break` taken
on the sentinel leaves the loop before `i += prev`, so the sentinel is stored but not
counted. -/
theorem ctf_recvuntil_sentinel_uncounted :
    ∃ res m, ctf_recvuntil 11 abcReads abcStream (some blank) 10 '\n' = some res ∧
      res.msg = some m ∧ m.take 4 = ['a', 'b', 'c', '\n'] ∧ res.pos = 4 ∧ res.ret = 3 := by
  refine ⟨_, _, rfl, rfl, ?_, ?_, ?_⟩
  · decide
  · decide
  · decide

/-- C10 (counterexample): with maximum length `2 ^ 31`, a stream of `'a'` bytes that is
always ready and sentinel `'\n'`, the premises of the claim hold, but `ctf_recvuntil` returns
`-2147483648` and not the maximum length: the `unsigned int` count is returned as `int`. -/
theorem ctf_recvuntil_full_wraps :
    (0 < 2 ^ 31) ∧ (∀ j, j < 2 ^ 31 → (capped 1) j 1 = 1 ∧ constStream 'a' j ≠ '\n') ∧
    ∃ res, ctf_recvuntil (2 ^ 31 + 1) (capped 1) (constStream 'a') (some blank) (2 ^ 31) '\n'
        = some res ∧ res.ret = -2147483648 ∧ res.ret ≠ ((2 ^ 31 : Nat) : Int) := by
  have hne : ∀ j, constStream 'a' j ≠ '\n' := fun j => by show 'a' ≠ '\n'; decide
  refine ⟨by norm_num, fun j _ => ⟨rfl, hne j⟩, ?_⟩
  rw [ctf_recvuntil_full (capped 1) (constStream 'a') blank (2 ^ 31) (2 ^ 31 + 1) '\n'
    (by norm_num) (by norm_num) (by norm_num) (fun _ _ => rfl) (fun j _ => hne j)]
  refine ⟨_, rfl, ?_, ?_⟩
  · simp only [toCInt]; norm_num
  · simp only [toCInt]; norm_num

/-- C10 (amended): for a maximum length `0 < len < 2 ^ 31`, if the first `len` reads each
deliver one byte and none of the first `len` bytes of the stream is the sentinel, then (with
fuel for `len` iterations) `ctf_recvuntil` returns `len`, the buffer holds the first `len`
bytes of the stream, every byte at index `len` or above is untouched, and exactly `len`
bytes are consumed, by exactly `len` reads. -/
theorem ctf_recvuntil_max_length (rd : IoOutcomes) (data : Nat → Char) (buf : Buffer)
    (len fuel : Nat) (stop : Char) (hlen : len < 2 ^ 31) (h0 : 0 < len) (hfuel : len < fuel)
    (hrd : ∀ j, j < len → rd j 1 = 1) (hdata : ∀ j, j < len → data j ≠ stop) :
    ∃ res m, ctf_recvuntil fuel rd data (some buf) len stop = some res ∧ res.msg = some m ∧
      res.ret = (len : Int) ∧ (∀ j, j < len → m j = data j) ∧ (∀ j, len ≤ j → m j = buf j) ∧
      res.pos = len ∧ res.log.length = len := by
  rw [ctf_recvuntil_full rd data buf len fuel stop (by omega) h0 hfuel hrd hdata]
  refine ⟨_, _, rfl, rfl, toCInt_small hlen, ?_, ?_, rfl, by simp⟩
  · intro j hj; simp only [hj, if_true]
  · intro j hj; simp only [show ¬ (j < len) by omega, if_false]

/-- C10 (example): on `"abc\ndef"` with sentinel `'\n'` and maximum length 2 the call
returns 2, stores `"ab"` and consumes two bytes. -/
theorem ctf_recvuntil_max_length_witness :
    (2 < 2 ^ 31) ∧ (∀ j, j < 2 → abcReads j 1 = 1) ∧ (∀ j, j < 2 → abcStream j ≠ '\n') ∧
    ∃ res m, ctf_recvuntil 3 abcReads abcStream (some blank) 2 '\n' = some res ∧
      res.msg = some m ∧ res.ret = ((2 : Nat) : Int) ∧ (∀ j, j < 2 → m j = abcStream j) ∧
      (∀ j, 2 ≤ j → m j = blank j) ∧ res.pos = 2 ∧ res.log.length = 2 :=
  have hrd : ∀ j, j < 2 → abcReads j 1 = 1 := by
    intro j hj; interval_cases j <;> decide
  have hdata : ∀ j, j < 2 → abcStream j ≠ '\n' := by
    intro j hj; interval_cases j <;> decide
  ⟨by norm_num, hrd, hdata,
    ctf_recvuntil_max_length abcReads abcStream blank 2 3 '\n' (by norm_num) (by norm_num)
      (by norm_num) hrd hdata⟩

theorem ctf_sendn_zero (wr : IoOutcomes) (msg : Buffer) (fuel : Nat) :
    ctf_sendn (fuel + 1) wr msg 0 = some { ret := 0, sent := [], log := [] } := by
  simp [ctf_sendn, ctf_sendn_loop, toCInt]

/-- C5: for a message of length `len < 2 ^ 31` and `write` outcomes `wr` that never exceed
the number of bytes asked for, `ctf_sendn` (with fuel for `len` iterations) returns, and the
writes it made are exactly those that `wr` dictates (`followsOutcomes`: the `k`-th write asks
for the bytes still unsent and gets `wr k` of that).  If no write it made failed, their
counts add up to `len`, it returns `len` and the chunks written concatenate, in order, to
the message.  If some write returned `r ≤ 0`, it returns that `r`, that write is the last
one made, every earlier one succeeded and the chunks written are the bytes accepted before.
In particular it returns `len` whenever `wr` never fails, and it returns `wr 0 len` after a
single write when that is `≤ 0`.  For `len = 0` it makes no `write` and returns 0. -/
theorem ctf_sendn_result (wr : IoOutcomes) (msg : Buffer) (len fuel : Nat)
    (hlen : len < 2 ^ 31) (hwr : ∀ k n, wr k n ≤ (n : Int)) (hfuel : len < fuel) :
    ∃ res, ctf_sendn fuel wr msg len = some res ∧
      followsOutcomes wr len res.log ∧
      ((∀ r ∈ res.log, 0 < r) →
        res.log.sum = (len : Int) ∧ res.ret = (len : Int) ∧
        res.sent.flatten = msg.take len) ∧
      (∀ r ∈ res.log, r ≤ 0 →
        res.ret = r ∧ res.log.getLast? = some r ∧ (∀ r' ∈ res.log.dropLast, 0 < r') ∧
        res.log.dropLast.sum < (len : Int) ∧
        res.sent.flatten = msg.take res.log.dropLast.sum.toNat) ∧
      ((∀ k n, 0 < n → 0 < wr k n) →
        res.ret = (len : Int) ∧ res.sent.flatten = msg.take len) ∧
      (0 < len → wr 0 len ≤ 0 → res.ret = wr 0 len ∧ res.log = [wr 0 len]) ∧
      (len = 0 → res.ret = 0 ∧ res.log = [] ∧ res.sent = []) := by
  obtain ⟨res, hres, hfol, pre, hpre, _, _, h⟩ := ctf_sendn_loop_spec wr msg len (by omega)
    (fun k n _ => hwr k n) fuel { i := 0, sent := [], log := [] } (Nat.zero_le _)
    (by simpa using hfuel) (by simp) (by simp) (by simp [Buffer.take])
    (followsOutcomes_nil wr len)
  refine ⟨res, hres, hfol, ?_, ?_, ?_, ?_, ?_⟩
  · intro hall
    rcases h with ⟨hlog, hsum, hret, hsent⟩ | ⟨r, hr, hlog, _⟩
    · exact ⟨by rw [hlog, hsum], by rw [hret, toCInt_small hlen], hsent⟩
    · have := hall r (by simp [hlog])
      omega
  · intro r hmem hr
    rcases h with ⟨hlog, _⟩ | ⟨r0, _, hlog, hret, hlt, hsent, _⟩
    · have := hpre r (hlog ▸ hmem)
      omega
    · rw [hlog, List.mem_append, List.mem_singleton] at hmem
      rcases hmem with hmem | rfl
      · have := hpre r hmem
        omega
      · refine ⟨hret, by rw [hlog, List.getLast?_concat], ?_, ?_, ?_⟩
        · rw [hlog, List.dropLast_concat]
          exact hpre
        · rw [hlog, List.dropLast_concat]
          exact hlt
        · rw [hlog, List.dropLast_concat]
          exact hsent
  · intro hok
    rcases h with ⟨_, _, hret, hsent⟩ | ⟨r, hr, _, _, _, _, k, n, hn, hrk⟩
    · exact ⟨by rw [hret, toCInt_small hlen], hsent⟩
    · have := hok k n hn
      omega
  · intro hpos hfirst
    have hzero : ∀ x, res.log[0]? = some x → x = wr 0 len := by
      intro x hx
      have := hfol 0 x hx
      simpa using this
    rcases h with ⟨hlog, hsum, _⟩ | ⟨r, hr, hlog, hret, _⟩
    · cases pre with
      | nil => simp at hsum; omega
      | cons x xs =>
        have hx := hzero x (by rw [hlog]; simp)
        have := hpre x (by simp)
        omega
    · cases pre with
      | nil =>
        have hx := hzero r (by rw [hlog]; simp)
        subst hx
        exact ⟨hret, by simpa using hlog⟩
      | cons x xs =>
        have hx := hzero x (by rw [hlog]; simp)
        have := hpre x (by simp)
        omega
  · rintro rfl
    obtain ⟨f, rfl⟩ : ∃ f, fuel = f + 1 := ⟨fuel - 1, by omega⟩
    have hz := ctf_sendn_zero wr msg f
    rw [ctf_sendn] at hz
    rw [hz] at hres
    cases hres
    exact ⟨rfl, rfl, rfl⟩

/-- C5 (example): sending the five bytes `"abc\nd"` through a `write` that accepts two
bytes and then fails: the call writes `"ab"`, makes the failing second write and returns
its `-1`. -/
theorem ctf_sendn_result_witness :
    (5 < 2 ^ 31) ∧ (∀ k n, failSecond k n ≤ (n : Int)) ∧
    ∃ res, ctf_sendn 6 failSecond abcStream 5 = some res ∧
      res.ret = -1 ∧ res.log = [2, -1] ∧ res.sent = [['a', 'b']] ∧
      followsOutcomes failSecond 5 res.log ∧
      (∀ r ∈ res.log, r ≤ 0 →
        res.ret = r ∧ res.log.getLast? = some r ∧ (∀ r' ∈ res.log.dropLast, 0 < r') ∧
        res.log.dropLast.sum < ((5 : Nat) : Int) ∧
        res.sent.flatten = Buffer.take abcStream res.log.dropLast.sum.toNat) := by
  have hwr : ∀ k n, failSecond k n ≤ (n : Int) := by
    intro k n
    unfold failSecond
    split <;> omega
  obtain ⟨res, hres, hfol, _, hfail, _⟩ :=
    ctf_sendn_result failSecond abcStream 5 6 (by norm_num) hwr (by norm_num)
  have hval : ctf_sendn 6 failSecond abcStream 5
      = some { ret := -1, sent := [['a', 'b']], log := [2, -1] } := by rfl
  have heq : res = { ret := -1, sent := [['a', 'b']], log := [2, -1] } :=
    Option.some.inj (hres.symm.trans hval)
  exact ⟨by norm_num, hwr, res, hres, by rw [heq], by rw [heq], by rw [heq], hfol, hfail⟩

theorem split_at_failure (pre : List Int) (r : Int) (hall : ∀ x ∈ pre, 0 < x) (hr : r ≤ 0) :
    (pre ++ [r]).takeWhile (fun a => decide (0 < a)) = pre ∧
    (pre ++ [r]).dropWhile (fun a => decide (0 < a)) = [r] := by
  induction pre with
  | nil =>
    have : ¬ (0 < r) := by omega
    simp [List.takeWhile, List.dropWhile, this]
  | cons x xs ih =>
    have hx : 0 < x := hall x (by simp)
    have := ih (fun y hy => hall y (by simp [hy]))
    simp [List.takeWhile, List.dropWhile, hx, this]

/-- C6 (counterexample): asked for `2 ^ 31` bytes from a stream that delivers `2 ^ 30` bytes
per `read`, `ctf_recv` makes two reads, collects all `2 ^ 31` bytes and returns
`-2147483648`, which is not the number of bytes read. -/
theorem ctf_recv_wraps :
    (∀ k n, capped (2 ^ 30) k n ≤ (n : Int)) ∧
    ∃ res, ctf_recv 3 (capped (2 ^ 30)) (constStream 'a') (some blank) (2 ^ 31) = some res ∧
      res.log = [1073741824, 1073741824] ∧ res.pos = 2147483648 ∧ res.ret = -2147483648 ∧
      res.ret ≠ (res.log.takeWhile fun r => decide (0 < r)).sum := by
  refine ⟨?_, _, rfl, ?_, ?_, ?_, ?_⟩
  · intro k n; unfold capped; omega
  · decide
  · decide
  · decide
  · decide

/-- C6 (amended): for a non-null buffer, a length `len < 2 ^ 31` and `read` outcomes `rd`
that never exceed the number of bytes asked for, `ctf_recv` (with fuel for `len` iterations)
returns, and the reads it made are exactly those that `rd` dictates (`followsOutcomes`: the
`k`-th read asks for the bytes still missing and gets `rd k` of that).  It returns the total
`n` of the byte counts read before the first outcome `≤ 0`; no `read` is made after such an
outcome; `n ≤ len`, and `n = len` exactly when no `read` failed, in particular whenever `rd`
never fails; `n` bytes are consumed from the stream, the first `n` bytes of the buffer are
the first `n` bytes of the stream and every byte from index `n` on (so every byte at index
`len` or above) is untouched. -/
theorem ctf_recv_result (rd : IoOutcomes) (data : Nat → Char) (buf : Buffer) (len fuel : Nat)
    (hlen : len < 2 ^ 31) (hrd : ∀ k n, rd k n ≤ (n : Int)) (hfuel : len < fuel) :
    ∃ res m, ∃ n : Nat, ctf_recv fuel rd data (some buf) len = some res ∧ res.msg = some m ∧
      followsOutcomes rd len res.log ∧
      res.ret = (n : Int) ∧ (n : Int) = (res.log.takeWhile fun r => decide (0 < r)).sum ∧
      (res.log.dropWhile fun r => decide (0 < r)).length ≤ 1 ∧
      n ≤ len ∧ (n = len ↔ ∀ r ∈ res.log, 0 < r) ∧
      ((∀ k n, 0 < n → 0 < rd k n) → n = len) ∧
      (0 < len → rd 0 len ≤ 0 → n = 0 ∧ res.log = [rd 0 len]) ∧
      res.pos = n ∧
      (∀ j, j < n → m j = data j) ∧ (∀ j, n ≤ j → m j = buf j) := by
  by_cases h0 : len = 0
  · subst h0
    refine ⟨_, buf, 0, by simp [ctf_recv]; rfl, rfl, ?_⟩
    simp [toCInt, followsOutcomes_nil]
  · obtain ⟨st, hst, hfol, hle, hpos, hpre, hrest, pre, hall, hsum, h⟩ :=
      ctf_recv_loop_spec rd data len buf (by omega) (fun k n _ => hrd k n) fuel
        { i := 0, msg := buf, pos := 0, log := [] } (Nat.zero_le _) (by simpa using hfuel) rfl
        (by simp) (by simp) (by simp) (by simp) (followsOutcomes_nil rd len)
    have hall' : ∀ r ∈ pre, decide (0 < r) = true := fun r hr => by simpa using hall r hr
    have hzero : ∀ x, st.log[0]? = some x → x = rd 0 len := by
      intro x hx
      have := hfol 0 x hx
      simpa using this
    refine ⟨{ ret := toCInt st.i, msg := some st.msg, pos := st.pos, log := st.log }, st.msg,
      st.i, by simp [ctf_recv, h0, hst], rfl, hfol, toCInt_small (by omega),
      ?_, ?_, hle, ?_, ?_, ?_, hpos, hpre, hrest⟩
    · rcases h with ⟨hlog, _⟩ | ⟨r, hr, hlog, _⟩
      · simp only [hlog, List.takeWhile_eq_self_iff.mpr hall', hsum]
      · rw [hlog, (split_at_failure pre r hall hr).1, hsum]
    · rcases h with ⟨hlog, _⟩ | ⟨r, hr, hlog, _⟩
      · simp only [hlog, List.dropWhile_eq_nil_iff.mpr hall', List.length_nil, Nat.zero_le]
      · rw [hlog, (split_at_failure pre r hall hr).2]
        exact Nat.le_refl _
    · rcases h with ⟨hlog, hi⟩ | ⟨r, hr, hlog, hi, _⟩
      · simp only [hlog, hi, true_iff]; exact hall
      · constructor
        · intro h; omega
        · intro h
          have := h r (by simp [hlog])
          omega
    · intro hok
      rcases h with ⟨_, hi⟩ | ⟨r, hr, _, _, k, n, hn, hrk⟩
      · exact hi
      · have := hok k n hn
        omega
    · intro hpos0 hfirst
      rcases h with ⟨hlog, hi⟩ | ⟨r, hr, hlog, _⟩
      · cases pre with
        | nil => simp at hsum; omega
        | cons x xs =>
          have hx := hzero x (by rw [hlog]; simp)
          have := hall x (by simp)
          omega
      · cases pre with
        | nil =>
          have hx := hzero r (by rw [hlog]; simp)
          subst hx
          simp at hsum
          exact ⟨by omega, by simpa using hlog⟩
        | cons x xs =>
          have hx := hzero x (by rw [hlog]; simp)
          have := hall x (by simp)
          omega

/-- C6 (example): reading six bytes of `"abc\ndef"` through reads of at most four bytes:
two reads, of four and of two bytes, and the return value 6. -/
theorem ctf_recv_result_witness :
    (6 < 2 ^ 31) ∧ (∀ k n, capped 4 k n ≤ (n : Int)) ∧
    ∃ res m, ∃ n : Nat, ctf_recv 7 (capped 4) abcStream (some blank) 6 = some res ∧
      res.msg = some m ∧ res.ret = 6 ∧ res.log = [4, 2] ∧ n = 6 ∧
      followsOutcomes (capped 4) 6 res.log ∧
      res.ret = (n : Int) ∧ (n : Int) = (res.log.takeWhile fun r => decide (0 < r)).sum ∧
      (n = 6 ↔ ∀ r ∈ res.log, 0 < r) ∧ res.pos = n ∧
      (∀ j, j < n → m j = abcStream j) ∧ (∀ j, n ≤ j → m j = blank j) := by
  have hrd : ∀ k n, capped 4 k n ≤ (n : Int) := by
    intro k n; unfold capped; omega
  obtain ⟨res, m, n, hres, hm, hfol, hret, hsum, _, _, hiff, hok, _, hpos, hpre, hrest⟩ :=
    ctf_recv_result (capped 4) abcStream blank 6 7 (by norm_num) hrd (by norm_num)
  have hn : n = 6 := hok (by intro k n hn; unfold capped; omega)
  obtain ⟨x, hx, hxlog⟩ : ∃ x, ctf_recv 7 (capped 4) abcStream (some blank) 6 = some x ∧
      x.log = [4, 2] := ⟨_, rfl, by decide⟩
  have heq : res = x := Option.some.inj (hres.symm.trans hx)
  exact ⟨by norm_num, hrd, res, m, n, hres, hm, by rw [hret, hn]; rfl, by rw [heq, hxlog], hn,
    hfol, hret, hsum, hiff, hpos, hpre, hrest⟩

theorem channelData_of_flatten (sent : List (List Char)) (msg : Buffer) (L j : Nat)
    (h : sent.flatten = msg.take L) (hj : j < L) : channelData sent j = msg j := by
  unfold channelData
  rw [h, Buffer.take, List.getD_eq_getElem _ _ (by simpa using hj)]
  simp

/-- C7 (counterexample): a buffer of `2 ^ 31` bytes sent over a channel that transfers
`2 ^ 30` bytes per call and never fails is written completely by two writes and read
completely by two reads, but `ctf_sendn` and `ctf_recv` both return `-2147483648`, not the
length. -/
theorem sendn_recv_wraps :
    (∀ k n, 0 < n → 0 < capped (2 ^ 30) k n ∧ capped (2 ^ 30) k n ≤ (n : Int)) ∧
    ∃ s, ctf_sendn 3 (capped (2 ^ 30)) (constStream 'a') (2 ^ 31) = some s ∧
      s.log = [1073741824, 1073741824] ∧ s.ret = -2147483648 ∧
      s.ret ≠ ((2 ^ 31 : Nat) : Int) ∧
      ∃ r, ctf_recv 3 (capped (2 ^ 30)) (channelData s.sent) (some blank) (2 ^ 31) = some r ∧
        r.log = [1073741824, 1073741824] ∧ r.ret = -2147483648 := by
  refine ⟨?_, _, rfl, ?_, ?_, ?_, _, rfl, ?_, ?_⟩
  · intro k n hn; unfold capped; omega
  · decide
  · decide
  · decide
  · decide
  · decide

/-- C7 (amended): over a lossless in-order channel whose writes and reads never fail and
transfer between 1 and the number of bytes asked for, for every buffer of length
`L < 2 ^ 31` (`L = 0` included), `ctf_sendn` of the buffer followed by `ctf_recv` of `L`
bytes from what was written returns `L` on both sides (with fuel for `L` iterations), and
the first `L` bytes received are the first `L` bytes of the original buffer. -/
theorem sendn_recv_roundtrip (wr rd : IoOutcomes) (msg buf : Buffer) (L fuel : Nat)
    (hL : L < 2 ^ 31)
    (hwr : ∀ k n, 0 < n → 0 < wr k n ∧ wr k n ≤ (n : Int))
    (hrd : ∀ k n, 0 < n → 0 < rd k n ∧ rd k n ≤ (n : Int)) (hfuel : L < fuel) :
    ∃ s r m, ctf_sendn fuel wr msg L = some s ∧
      ctf_recv fuel rd (channelData s.sent) (some buf) L = some r ∧
      s.ret = (L : Int) ∧ r.ret = (L : Int) ∧ r.msg = some m ∧ m.take L = msg.take L := by
  obtain ⟨s, hs, _, pre, _, _, _, h⟩ := ctf_sendn_loop_spec wr msg L (by omega)
    (fun k n hn => (hwr k n hn).2) fuel { i := 0, sent := [], log := [] } (Nat.zero_le _)
    (by simpa using hfuel) (by simp) (by simp) (by simp [Buffer.take])
    (followsOutcomes_nil wr L)
  rcases h with ⟨_, _, hret, hsent⟩ | ⟨r, hr, _, _, _, _, k, n, hn, hrk⟩
  · by_cases h0 : L = 0
    · subst h0
      refine ⟨s, { ret := toCInt 0, msg := some buf, pos := 0, log := [] }, buf, hs,
        by simp [ctf_recv], by rw [hret, toCInt_small hL], toCInt_small hL, rfl, ?_⟩
      simp [Buffer.take]
    · obtain ⟨st, hst, _, _, _, hdata, _, pre', _, _, h'⟩ :=
        ctf_recv_loop_spec rd (channelData s.sent) L buf (by omega)
          (fun k n hn => (hrd k n hn).2) fuel { i := 0, msg := buf, pos := 0, log := [] }
          (Nat.zero_le _) (by simpa using hfuel) rfl (by simp) (by simp) (by simp) (by simp)
          (followsOutcomes_nil rd L)
      rcases h' with ⟨_, hi⟩ | ⟨r, hr, _, _, k, n, hn, hrk⟩
      · refine ⟨s, { ret := toCInt st.i, msg := some st.msg, pos := st.pos, log := st.log },
          st.msg, hs, by simp [ctf_recv, h0, hst], by rw [hret, toCInt_small hL],
          by rw [hi, toCInt_small hL], rfl, ?_⟩
        apply List.map_congr_left
        intro j hj
        have hj' : j < L := by simpa using hj
        rw [hdata j (by omega), channelData_of_flatten s.sent msg L j hsent hj']
      · have := (hrd k n hn).1
        omega
  · have := (hwr k n hn).1
    omega

/-- C7 (example): the six bytes `"abc\ndef"` sent in chunks of at most four bytes and read
back in chunks of at most four bytes. -/
theorem sendn_recv_roundtrip_witness :
    (6 < 2 ^ 31) ∧ (∀ k n, 0 < n → 0 < capped 4 k n ∧ capped 4 k n ≤ (n : Int)) ∧
    ∃ s r m, ctf_sendn 7 (capped 4) abcStream 6 = some s ∧
      ctf_recv 7 (capped 4) (channelData s.sent) (some blank) 6 = some r ∧
      s.ret = ((6 : Nat) : Int) ∧ r.ret = ((6 : Nat) : Int) ∧ r.msg = some m ∧
      m.take 6 = Buffer.take abcStream 6 :=
  have hio : ∀ k n, 0 < n → 0 < capped 4 k n ∧ capped 4 k n ≤ (n : Int) := by
    intro k n hn; unfold capped; omega
  ⟨by norm_num, hio,
    sendn_recv_roundtrip (capped 4) (capped 4) abcStream blank 6 7 (by norm_num) hio hio
      (by norm_num)⟩

/-! ### Claims about the descriptor randomizer -/

theorem lowestFreeFrom_spec (t : FdTable) :
    ∀ n start fd, lowestFreeFrom t n start = some fd → start ≤ fd ∧ t fd = none := by
  intro n
  induction n with
  | zero => intro start fd h; simp [lowestFreeFrom] at h
  | succ n ih =>
    intro start fd h
    unfold lowestFreeFrom at h
    by_cases hfree : (t start).isNone = true
    · simp only [hfree, if_true, Option.some.injEq] at h
      subst h
      exact ⟨Int.le_refl _, by simpa using hfree⟩
    · simp only [hfree] at h
      obtain ⟨h1, h2⟩ := ih (start + 1) fd h
      exact ⟨by omega, h2⟩

/-- Opening and closing `/dev/urandom` leaves the descriptor table as it was. -/
theorem urandom_open_close (t : FdTable) (max : Int) (file : Option Nat) :
    (if (sys_alloc t max file).1 < 0 then (sys_alloc t max file).2
      else sys_close (sys_alloc t max file).2 (sys_alloc t max file).1) = t := by
  unfold sys_alloc
  cases file with
  | none => simp
  | some f =>
    cases hfree : lowestFreeFrom t max.toNat 0 with
    | none => simp
    | some fd =>
      obtain ⟨h0, hnone⟩ := lowestFreeFrom_spec t _ _ _ hfree
      simp only [show ¬ (fd < 0) by omega, if_false]
      funext x
      simp only [sys_close, FdTable.set]
      by_cases hx : x = fd
      · simp [hx, hnone]
      · simp [hx]

theorem randfd_loop_range (old max : Int) (hmax : 0 < max) :
    ∀ ds new r, new < max → randfd_loop old max ds new = some r → old ≤ r ∧ r < max := by
  intro ds
  induction ds with
  | nil =>
    intro new r hnew h
    unfold randfd_loop at h
    by_cases hlt : new < old
    · simp [hlt] at h
    · simp only [hlt, if_false, Option.some.injEq] at h
      subst h
      exact ⟨by omega, hnew⟩
  | cons d ds ih =>
    intro new r hnew h
    unfold randfd_loop at h
    by_cases hlt : new < old
    · simp only [hlt, if_true] at h
      exact ih _ r (Int.tmod_lt_of_pos d hmax) h
    · simp only [hlt, if_false, Option.some.injEq] at h
      subst h
      exact ⟨by omega, hnew⟩

theorem sys_dup2_failed (t : FdTable) (max : Int) (intr : Bool) (old new : Int)
    (hnew : 0 ≤ new) (h : (sys_dup2 t max intr old new).1 = -1) :
    (sys_dup2 t max intr old new).2 = t := by
  unfold sys_dup2 at h ⊢
  cases intr with
  | true => simp
  | false =>
    cases ht : t old with
    | none => simp
    | some f =>
      simp only [ht, Bool.false_eq_true, if_false] at h ⊢
      by_cases hr : new < 0 ∨ max ≤ new
      · simp [hr]
      · by_cases he : new = old
        · rw [if_neg hr, if_pos he]
        · simp only [hr, he, if_false] at h
          omega

/-- The drawing loop started with `new = cur` ends with `new = r` exactly when either it is
not entered, or some draw is the first whose remainder is not below `old`. -/
theorem randfd_loop_some_iff (old max : Int) :
    ∀ ds cur r, randfd_loop old max ds cur = some r ↔
      ((¬ cur < old ∧ r = cur) ∨
       (cur < old ∧ ∃ pre d rest, ds = pre ++ d :: rest ∧
          (∀ x ∈ pre, Int.tmod x max < old) ∧ r = Int.tmod d max ∧ old ≤ r)) := by
  intro ds
  induction ds with
  | nil =>
    intro cur r
    unfold randfd_loop
    by_cases hlt : cur < old
    · simp [hlt]
    · simp only [hlt, if_false, Option.some.injEq, not_false_eq_true, true_and, false_and,
        or_false]
      exact eq_comm
  | cons d0 ds ih =>
    intro cur r
    unfold randfd_loop
    by_cases hlt : cur < old
    · simp only [hlt, if_true, not_true_eq_false, false_and, false_or, true_and]
      rw [ih]
      constructor
      · rintro (⟨hge, rfl⟩ | ⟨hlt0, pre, d, rest, hds, hpre, hr, hle⟩)
        · exact ⟨[], d0, ds, rfl, by simp, rfl, by omega⟩
        · refine ⟨d0 :: pre, d, rest, by rw [hds]; rfl, ?_, hr, hle⟩
          intro x hx
          rcases List.mem_cons.mp hx with rfl | hx
          · exact hlt0
          · exact hpre x hx
      · rintro ⟨pre, d, rest, hds, hpre, hr, hle⟩
        cases pre with
        | nil =>
          simp only [List.nil_append, List.cons.injEq] at hds
          obtain ⟨rfl, rfl⟩ := hds
          exact Or.inl ⟨by omega, hr⟩
        | cons x xs =>
          simp only [List.cons_append, List.cons.injEq] at hds
          obtain ⟨rfl, rfl⟩ := hds
          exact Or.inr ⟨hpre _ (by simp), xs, d, rest, rfl,
            fun y hy => hpre y (by simp [hy]), hr, hle⟩
    · simp only [hlt, if_false, Option.some.injEq, not_false_eq_true, true_and, false_and,
        or_false]
      exact eq_comm

theorem sys_dup2_done (t : FdTable) (max : Int) (old new : Int) (f : Nat)
    (hold : t old = some f) (h0 : 0 ≤ new) (hmax : new < max) :
    (sys_dup2 t max false old new).1 = new := by
  unfold sys_dup2
  have hr : ¬ (new < 0 ∨ max ≤ new) := by omega
  by_cases he : new = old
  · simp only [Bool.false_eq_true, if_false, hold]
    rw [if_neg hr, if_pos he]
  · simp [hold, hr, he]

/-- C4: let `old ≥ 0` be the original handle and `env.max > old` the table limit.  The
drawing loop ends on the draws `env.draws` exactly when `old = 0` (no draw is made and the
candidate is 0) or some draw is the first whose remainder modulo `env.max` is not below
`old` (that remainder is the candidate); `ctf_randfd` returns on exactly these draw
sequences.  Whenever it returns, the returned handle lies in `[old, env.max)`; its `dup2`
call is `dup2(old, candidate)` on the table the function was entered with; if that call
fails (it does when it is interrupted or `old` is not open) the returned handle is `old`
and the descriptor table is unchanged, so `old` has not been closed; if it succeeds (it
does when it is not interrupted and `old` is open) the candidate is returned. -/
theorem ctf_randfd_range (env : RandEnv) (t : FdTable) (old : Int) (h0 : 0 ≤ old)
    (hm : old < env.max) :
    (∀ res, ctf_randfd env t old = some res →
      old ≤ res.ret ∧ res.ret < env.max ∧
      ∃ new,
        ((old = 0 ∧ new = 0) ∨
          (0 < old ∧ ∃ pre d rest, env.draws = pre ++ d :: rest ∧
            (∀ x ∈ pre, Int.tmod x env.max < old) ∧ new = Int.tmod d env.max ∧ old ≤ new)) ∧
        res.dup = (sys_dup2 t env.max env.dupIntr old new).1 ∧
        (res.dup = -1 → res.ret = old ∧ res.table = t ∧ res.table old = t old) ∧
        (res.dup ≠ -1 → res.ret = new ∧
          res.table = sys_close (sys_dup2 t env.max env.dupIntr old new).2 old) ∧
        (env.dupIntr = true ∨ t old = none →
          res.dup = -1 ∧ res.ret = old ∧ res.table = t) ∧
        (env.dupIntr = false → (∃ f, t old = some f) → res.dup = new ∧ res.ret = new)) ∧
    (∀ new,
      ((old = 0 ∧ new = 0) ∨
        (0 < old ∧ ∃ pre d rest, env.draws = pre ++ d :: rest ∧
          (∀ x ∈ pre, Int.tmod x env.max < old) ∧ new = Int.tmod d env.max ∧ old ≤ new)) →
      ∃ res, ctf_randfd env t old = some res) := by
  have hshape : ∀ new, randfd_loop old env.max env.draws 0 = some new ↔
      ((old = 0 ∧ new = 0) ∨
        (0 < old ∧ ∃ pre d rest, env.draws = pre ++ d :: rest ∧
          (∀ x ∈ pre, Int.tmod x env.max < old) ∧ new = Int.tmod d env.max ∧ old ≤ new)) := by
    intro new
    rw [randfd_loop_some_iff]
    constructor
    · rintro (⟨h1, h2⟩ | h)
      · exact Or.inl ⟨by omega, h2⟩
      · exact Or.inr h
    · rintro (⟨h1, h2⟩ | h)
      · exact Or.inl ⟨by omega, h2⟩
      · exact Or.inr h
  constructor
  · intro res hres
    unfold ctf_randfd at hres
    simp only [urandom_open_close] at hres
    cases hloop : randfd_loop old env.max env.draws 0 with
    | none => simp [hloop] at hres
    | some new =>
      obtain ⟨hlo, hhi⟩ :=
        randfd_loop_range old env.max (by omega) env.draws 0 new (by omega) hloop
      simp only [hloop] at hres
      by_cases hdup : (sys_dup2 t env.max env.dupIntr old new).1 = -1
      · simp only [hdup, if_true, Option.some.injEq] at hres
        subst hres
        have ht := sys_dup2_failed t env.max env.dupIntr old new (by omega) hdup
        refine ⟨Int.le_refl _, hm, new, (hshape new).mp hloop, hdup.symm,
          fun _ => ⟨rfl, ht, by rw [ht]⟩, fun h => absurd rfl h, fun _ => ⟨rfl, rfl, ht⟩, ?_⟩
        rintro hint ⟨f, hf⟩
        rw [hint, sys_dup2_done t env.max old new f hf (by omega) hhi] at hdup
        omega
      · simp only [hdup, if_false, Option.some.injEq] at hres
        subst hres
        refine ⟨hlo, hhi, new, (hshape new).mp hloop, rfl, fun h => absurd h hdup,
          fun _ => ⟨rfl, rfl⟩, ?_, ?_⟩
        · intro hcase
          exfalso
          apply hdup
          unfold sys_dup2
          rcases hcase with hint | hnone
          · simp [hint]
          · cases env.dupIntr <;> simp [hnone]
        · rintro hint ⟨f, hf⟩
          exact ⟨by rw [hint]; exact sys_dup2_done t env.max old new f hf (by omega) hhi, rfl⟩
  · intro new hnew
    have hloop := (hshape new).mpr hnew
    unfold ctf_randfd
    simp only [hloop, urandom_open_close]
    by_cases hdup : (sys_dup2 t env.max env.dupIntr old new).1 = -1
    · exact ⟨_, by rw [if_pos hdup]⟩
    · exact ⟨_, by rw [if_neg hdup]⟩

/-- C4 (example): from handle 5 with draws 2 and 1031 under a limit of 1024 the candidate
is 7.  When `dup2` is interrupted the call returns the original handle 5 and leaves the
table as it was; otherwise it returns 7. -/
theorem ctf_randfd_range_witness :
    (0 : Int) ≤ 5 ∧ (5 : Int) < (interruptedEnv [2, 1031]).max ∧
    (∃ res, ctf_randfd (interruptedEnv [2, 1031]) busyTable 5 = some res ∧
      res.dup = -1 ∧ res.ret = 5 ∧ res.table = busyTable) ∧
    (∃ res, ctf_randfd (urandomEnv [2, 1031]) busyTable 5 = some res ∧
      res.dup = 7 ∧ res.ret = 7 ∧ (5 : Int) ≤ res.ret ∧ res.ret < (urandomEnv [2, 1031]).max) := by
  refine ⟨by decide, by decide, ?_, ?_⟩
  · obtain ⟨_, _, new, _, _, _, _, hfall, _⟩ :=
      (ctf_randfd_range (interruptedEnv [2, 1031]) busyTable 5 (by decide) (by decide)).1 _ rfl
    exact ⟨_, rfl, hfall (Or.inl rfl)⟩
  · obtain ⟨hlo, hhi, new, _, _, _, _, _, _⟩ :=
      (ctf_randfd_range (urandomEnv [2, 1031]) busyTable 5 (by decide) (by decide)).1 _ rfl
    exact ⟨_, rfl, by decide, by decide, hlo, hhi⟩

/-- C3 (failing input): handle 5 is open on the accepted connection and the draw is 5.
`dup2(5, 5)` succeeds and returns 5, `close(old)` then closes descriptor 5, and `ctf_randfd`
returns 5, a closed descriptor. -/
theorem ctf_randfd_same_slot_closed :
    ∃ res, ctf_randfd (urandomEnv [5]) busyTable 5 = some res ∧ busyTable 5 = some 3 ∧
      res.dup = 5 ∧ res.ret = 5 ∧ res.table 5 = none := by
  refine ⟨_, rfl, ?_, ?_, ?_, ?_⟩ <;> decide

/-! ### Claims about the dispatcher -/

/-- C2 (failing input): a connection is accepted on descriptor 4, renamed to 7, and `fork`
fails.  The supervisor continues with descriptor 7 still open on the connection, although
7 was closed when the iteration began; when `fork` succeeds the supervisor does close it. -/
theorem ctf_server_fork_failure_leaks :
    ∃ res t', ctf_server_body release (iterEnv (-1)) 3 "ctf" serverTable = some res ∧
      res.outcome = .continues t' ∧
      res.trace = [.accept 4, .randfd 4 7, .fork (-1)] ∧
      serverTable 7 = none ∧ t' 7 = some 5 ∧
      ∃ res2 t2, ctf_server_body release (iterEnv 4242) 3 "ctf" serverTable = some res2 ∧
        res2.outcome = .continues t2 ∧
        res2.trace = [.accept 4, .randfd 4 7, .fork 4242, .close 7] ∧ t2 7 = none := by
  refine ⟨_, _, rfl, rfl, ?_, ?_, ?_, _, _, rfl, rfl, ?_, ?_⟩ <;> decide

/-! ### Claims about privilege de-escalation and the worker -/

/-- C8: `ctf_privdrop` returns only if the name resolved and `setgroups(0, NULL)`,
`setgid(pw_gid)`, `setuid(pw_uid)` and the directory change all succeeded; the calls were
then made in exactly that order, and on return the user and group identifiers are the
resolved ones and the supplementary groups are empty.  For an unknown name the process
exits right after `getpwnam`; and when a step fails the process exits with that step as the
last call made. -/
theorem ctf_privdrop_all_or_terminate (cfg : Config) (env : PrivEnv) (user : String)
    (c : Context) :
    (∀ c', (ctf_privdrop cfg env user c).ctx = some c' →
      ∃ pw, env.getpwnam user = some pw ∧ 0 ≤ env.setgroups ∧ 0 ≤ env.setgid ∧
        0 ≤ env.setuid ∧ 0 ≤ env.chdir ∧ (cfg.chroot = true → 0 ≤ env.chroot) ∧
        (ctf_privdrop cfg env user c).trace =
          [.getpwnam user, .setgroups 0, .setgid pw.pw_gid, .setuid pw.pw_uid] ++
            (if cfg.chroot then [Event.chroot pw.pw_dir, .chdir "/"]
              else [.chdir pw.pw_dir]) ∧
        c'.uid = pw.pw_uid ∧ c'.gid = pw.pw_gid ∧ c'.groups = []) ∧
    (env.getpwnam user = none →
      (ctf_privdrop cfg env user c).ctx = none ∧
      (ctf_privdrop cfg env user c).trace = [.getpwnam user, .exit (-1)]) ∧
    (∀ pw, env.getpwnam user = some pw → env.setgroups < 0 →
      (ctf_privdrop cfg env user c).ctx = none ∧
      (ctf_privdrop cfg env user c).trace = [.getpwnam user, .setgroups 0, .exit (-1)]) ∧
    (∀ pw, env.getpwnam user = some pw → 0 ≤ env.setgroups → env.setgid < 0 →
      (ctf_privdrop cfg env user c).ctx = none ∧
      (ctf_privdrop cfg env user c).trace =
        [.getpwnam user, .setgroups 0, .setgid pw.pw_gid, .exit (-1)]) ∧
    (∀ pw, env.getpwnam user = some pw → 0 ≤ env.setgroups → 0 ≤ env.setgid →
      env.setuid < 0 →
      (ctf_privdrop cfg env user c).ctx = none ∧
      (ctf_privdrop cfg env user c).trace =
        [.getpwnam user, .setgroups 0, .setgid pw.pw_gid, .setuid pw.pw_uid, .exit (-1)]) ∧
    (∀ pw, env.getpwnam user = some pw → 0 ≤ env.setgroups → 0 ≤ env.setgid →
      0 ≤ env.setuid → cfg.chroot = false → env.chdir < 0 →
      (ctf_privdrop cfg env user c).ctx = none ∧
      (ctf_privdrop cfg env user c).trace =
        [.getpwnam user, .setgroups 0, .setgid pw.pw_gid, .setuid pw.pw_uid,
          .chdir pw.pw_dir, .exit (-1)]) ∧
    (∀ pw, env.getpwnam user = some pw → 0 ≤ env.setgroups → 0 ≤ env.setgid →
      0 ≤ env.setuid → cfg.chroot = true → env.chroot < 0 →
      (ctf_privdrop cfg env user c).ctx = none ∧
      (ctf_privdrop cfg env user c).trace =
        [.getpwnam user, .setgroups 0, .setgid pw.pw_gid, .setuid pw.pw_uid,
          .chroot pw.pw_dir, .exit (-1)]) ∧
    (∀ pw, env.getpwnam user = some pw → 0 ≤ env.setgroups → 0 ≤ env.setgid →
      0 ≤ env.setuid → cfg.chroot = true → 0 ≤ env.chroot → env.chdir < 0 →
      (ctf_privdrop cfg env user c).ctx = none ∧
      (ctf_privdrop cfg env user c).trace =
        [.getpwnam user, .setgroups 0, .setgid pw.pw_gid, .setuid pw.pw_uid,
          .chroot pw.pw_dir, .chdir "/", .exit (-1)]) := by
  refine ⟨?_, ?_, ?_, ?_, ?_, ?_, ?_, ?_⟩
  · intro c' hc
    unfold ctf_privdrop at hc ⊢
    cases hpw : env.getpwnam user with
    | none => simp [hpw] at hc
    | some pw =>
      simp only [hpw] at hc ⊢
      by_cases h1 : env.setgroups < 0
      · simp [h1] at hc
      by_cases h2 : env.setgid < 0
      · simp [h1, h2] at hc
      by_cases h3 : env.setuid < 0
      · simp [h1, h2, h3] at hc
      simp only [h1, h2, h3, if_false] at hc ⊢
      unfold privdrop_dir at hc ⊢
      cases hch : cfg.chroot with
      | true =>
        simp only [hch, if_true] at hc ⊢
        by_cases h4 : env.chroot < 0
        · simp [h4] at hc
        by_cases h5 : env.chdir < 0
        · simp [h4, h5] at hc
        simp only [h4, h5, if_false, Option.some.injEq] at hc ⊢
        subst hc
        exact ⟨pw, rfl, by omega, by omega, by omega, by omega, fun _ => by omega, rfl, rfl,
          rfl, rfl⟩
      | false =>
        simp only [hch, Bool.false_eq_true, if_false] at hc ⊢
        by_cases h5 : env.chdir < 0
        · simp [h5] at hc
        simp only [h5, if_false, Option.some.injEq] at hc ⊢
        subst hc
        exact ⟨pw, rfl, by omega, by omega, by omega, by omega, by simp, rfl, rfl, rfl, rfl⟩
  · intro h
    simp [ctf_privdrop, h]
  · intro pw h h1
    simp [ctf_privdrop, h, h1]
  · intro pw h h1 h2
    simp [ctf_privdrop, h, Int.not_lt.mpr h1, h2]
  · intro pw h h1 h2 h3
    simp [ctf_privdrop, h, Int.not_lt.mpr h1, Int.not_lt.mpr h2, h3]
  · intro pw h h1 h2 h3 hch h5
    simp [ctf_privdrop, privdrop_dir, h, Int.not_lt.mpr h1, Int.not_lt.mpr h2,
      Int.not_lt.mpr h3, hch, h5]
  · intro pw h h1 h2 h3 hch h4
    simp [ctf_privdrop, privdrop_dir, h, Int.not_lt.mpr h1, Int.not_lt.mpr h2,
      Int.not_lt.mpr h3, hch, h4]
  · intro pw h h1 h2 h3 hch h4 h5
    simp [ctf_privdrop, privdrop_dir, h, Int.not_lt.mpr h1, Int.not_lt.mpr h2,
      Int.not_lt.mpr h3, hch, Int.not_lt.mpr h4, h5]

/-- C8 (example): dropping from root to the account `ctf` when every call succeeds. -/
theorem ctf_privdrop_all_or_terminate_witness :
    ∃ c', (ctf_privdrop release privOk "ctf" rootCtx).ctx = some c' ∧
      c'.uid = 1000 ∧ c'.gid = 1000 ∧ c'.groups = [] ∧
      (ctf_privdrop release privOk "ctf" rootCtx).trace =
        [.getpwnam "ctf", .setgroups 0, .setgid 1000, .setuid 1000, .chdir "/home/ctf"] := by
  obtain ⟨pw, hpw, _, _, _, _, _, htrace, huid, hgid, hgroups⟩ :=
    (ctf_privdrop_all_or_terminate release privOk "ctf" rootCtx).1 _ rfl
  have hpw' : pw = { pw_uid := 1000, pw_gid := 1000, pw_dir := "/home/ctf" } := by
    have : privOk.getpwnam "ctf"
        = some { pw_uid := 1000, pw_gid := 1000, pw_dir := "/home/ctf" } := by decide
    rw [this] at hpw
    exact (Option.some.inj hpw).symm
  subst hpw'
  exact ⟨_, rfl, huid, hgid, hgroups, htrace⟩

/-- C9 (counterexample): in the release build, a worker (`fork` returned 0) calls
`getpwnam`, `setgroups`, `setgid`, `setuid` and `chdir` before `alarm(16)`; and the
descriptor was randomized before the `fork`. -/
theorem worker_alarm_not_first :
    release.debug = false ∧
    ∃ res, ctf_server_body release (iterEnv 0) 3 "ctf" serverTable = some res ∧
      res.trace =
        [.accept 4, .randfd 4 7, .fork 0, .getpwnam "ctf", .setgroups 0, .setgid 1000,
          .setuid 1000, .chdir "/home/ctf", .alarm 16, .close 3, .handler 7, .close 7,
          .exit 0] ∧
      res.trace.indexOf (Event.setuid 1000) < res.trace.indexOf (Event.alarm 16) ∧
      res.trace.indexOf (Event.randfd 4 7) < res.trace.indexOf (Event.fork 0) := by
  refine ⟨rfl, _, rfl, ?_, ?_, ?_⟩ <;> decide

/-- C9 (amended): in every worker path of the non-debug build (the process in which `fork`
returned 0), the calls made are, in this order: `accept`; `ctf_randfd` when randomization is
compiled in, so in the supervisor and before the `fork`; the `fork`; the calls of
`ctf_privdrop`; and, only if `ctf_privdrop` returned, `alarm(16)` followed by `close(sd)`,
the handler invocation, `close(client)` and `exit`.  The alarm is thus armed after privilege
de-escalation and before the handler runs. -/
theorem worker_alarm_after_privdrop (cfg : Config) (env : IterEnv) (sd : Int) (user : String)
    (t : FdTable) (res : IterResult) (hcfg : cfg.debug = false) (hpid : env.pid = 0)
    (hres : ctf_server_body cfg env sd user t = some res)
    (hfork : Event.fork 0 ∈ res.trace) :
    ∃ a client, res.trace =
      [Event.accept a] ++ (if cfg.norand then [] else [Event.randfd a client]) ++
        [Event.fork 0] ++ (ctf_privdrop cfg env.priv user env.ctx).trace ++
        (if (ctf_privdrop cfg env.priv user env.ctx).ctx.isSome then
          [Event.alarm 16, .close sd, .handler client, .close client,
            .exit (env.handler client)]
         else []) := by
  unfold ctf_server_body at hres
  by_cases hacc : (sys_alloc t env.rand.max env.conn).1 = -1
  · simp only [hacc, if_true, Option.some.injEq] at hres
    subst hres
    simp at hfork
  · simp only [hacc, if_false, hcfg, hpid, Bool.not_false, Bool.true_and] at hres
    cases hn : cfg.norand with
    | true =>
      simp only [hn, Bool.not_true, Bool.false_eq_true, if_false, show ¬ ((0 : Int) = -1) by omega,
        ne_eq, not_true_eq_false, worker_path, hcfg] at hres
      cases hd : (ctf_privdrop cfg env.priv user env.ctx).ctx with
      | none =>
        simp only [hd, Option.some.injEq] at hres
        subst hres
        exact ⟨(sys_alloc t env.rand.max env.conn).1, (sys_alloc t env.rand.max env.conn).1,
          by simp⟩
      | some c' =>
        simp only [hd, Option.some.injEq] at hres
        subst hres
        exact ⟨(sys_alloc t env.rand.max env.conn).1, (sys_alloc t env.rand.max env.conn).1,
          by simp⟩
    | false =>
      simp only [hn, Bool.not_false, if_true] at hres
      cases hr : ctf_randfd env.rand (sys_alloc t env.rand.max env.conn).2
          (sys_alloc t env.rand.max env.conn).1 with
      | none => simp [hr] at hres
      | some r =>
        simp only [hr, Option.map_some', show ¬ ((0 : Int) = -1) by omega, if_false,
          ne_eq, not_true_eq_false, worker_path, hcfg, Bool.false_eq_true] at hres
        cases hd : (ctf_privdrop cfg env.priv user env.ctx).ctx with
        | none =>
          simp only [hd, Option.some.injEq] at hres
          subst hres
          exact ⟨(sys_alloc t env.rand.max env.conn).1, r.ret, by simp⟩
        | some c' =>
          simp only [hd, Option.some.injEq] at hres
          subst hres
          exact ⟨(sys_alloc t env.rand.max env.conn).1, r.ret, by simp⟩

/-- C9 (example): the worker of the release build serving a connection renamed to 7. -/
theorem worker_alarm_after_privdrop_witness :
    release.debug = false ∧ (iterEnv 0).pid = 0 ∧
    ∃ res, ctf_server_body release (iterEnv 0) 3 "ctf" serverTable = some res ∧
      Event.fork 0 ∈ res.trace ∧
      ∃ a client, res.trace =
        [Event.accept a] ++ (if release.norand then [] else [Event.randfd a client]) ++
          [Event.fork 0] ++ (ctf_privdrop release (iterEnv 0).priv "ctf" (iterEnv 0).ctx).trace ++
          (if (ctf_privdrop release (iterEnv 0).priv "ctf" (iterEnv 0).ctx).ctx.isSome then
            [Event.alarm 16, .close 3, .handler client, .close client,
              .exit ((iterEnv 0).handler client)]
           else []) :=
  ⟨rfl, rfl, _, rfl, by decide,
    worker_alarm_after_privdrop release (iterEnv 0) 3 "ctf" serverTable _ rfl rfl rfl
      (by decide)⟩

end LibCtf
